import Mathlib

/-!
Verification of the HIV-dashboard data pipeline: a shallow embedding of the
label normalizer, dataset loader, filter engine, aggregation engine and
insight engine of `src/dashboard.py`, with theorems about the spec's claims.

Rows of the canonical table carry the five canonical columns.  Spark
dataframes become lists of rows; groupBy/agg becomes an explicit
group-and-sum over first-seen distinct keys; `orderBy` becomes an insertion
sort by the column's order (binary/code-point order on strings, numeric
order on years); pandas `idxmax` becomes a first-maximum scan.
-/

namespace HIVDash

/-- Row of the canonical table (columns after `withColumnRenamed`):
region, case count, age-group label, gender, year. -/
structure Row where
  Kabupaten_Kota : String
  Jumlah_Kasus : Int
  Kelompok_Umur : String
  Jenis_Kelamin : String
  Tahun : Int
deriving DecidableEq

/-! ### String matching primitives (the `rlike` patterns of `load_data`) -/

/-- `beginsWith p s` is true when the pattern `p` is an initial segment of `s`. -/
def beginsWith : List Char → List Char → Bool
  | [], _ => true
  | _ :: _, [] => false
  | a :: p, c :: s => a == c && beginsWith p s

/-- Unanchored substring containment, as Java-regex `rlike` matches a literal
pattern anywhere in the string. -/
def containsSub (p : List Char) : List Char → Bool
  | [] => beginsWith p []
  | s@(_ :: t) => beginsWith p s || containsSub p t

/-- Characters the Java-regex dot `.` matches: any character that is not a
line terminator. -/
def dotChar (c : Char) : Bool :=
  !(c == '\n' || c == '\r' || c == '\u0085' || c == '\u2028' || c == '\u2029')

/-- Match of the regex `a.?b` at the start of `s`: the literal `a`, then zero
or one arbitrary (non line-terminator) character, then the literal `b`. -/
def matchHere (a b s : List Char) : Bool :=
  beginsWith a s &&
    (beginsWith b (s.drop a.length) ||
      match s.drop a.length with
      | [] => false
      | c :: rest => dotChar c && beginsWith b rest)

/-- Unanchored match of the regex `a.?b` anywhere in the string, as `rlike`
does (e.g. the pattern `0.?4` of `load_data`). -/
def looseFind (a b : List Char) : List Char → Bool
  | [] => matchHere a b []
  | s@(_ :: t) => matchHere a b s || looseFind a b t

/-- Spark's `trim`: remove leading and trailing space characters. -/
def trimChars (s : List Char) : List Char :=
  ((s.dropWhile (fun c => c == ' ')).reverse.dropWhile (fun c => c == ' ')).reverse

/-! ### The label normalizer (the `when`-chain of `load_data`) -/

/-- Pattern 1 of the chain, `rlike ">=50|≥50|â‰¥50"`: the label contains a
greater-or-equal-50 marker (including the mojibake variant). -/
def pat50 (t : List Char) : Bool :=
  containsSub ">=50".data t || containsSub "≥50".data t || containsSub "â‰¥50".data t

/-- Pattern 2, `rlike "0.?4"`. -/
def pat04 (t : List Char) : Bool := looseFind "0".data "4".data t

/-- Pattern 3, `rlike "5.?14|14-May"`: loose 5-14 or the spreadsheet
date-artifact literal. -/
def pat514 (t : List Char) : Bool :=
  looseFind "5".data "14".data t || containsSub "14-May".data t

/-- Pattern 4, `rlike "15.?19"`. -/
def pat1519 (t : List Char) : Bool := looseFind "15".data "19".data t

/-- Pattern 5, `rlike "20.?24"`. -/
def pat2024 (t : List Char) : Bool := looseFind "20".data "24".data t

/-- Pattern 6, `rlike "25.?49"`. -/
def pat2549 (t : List Char) : Bool := looseFind "25".data "49".data t

/-- The label normalizer: the `withColumn("Kelompok_Umur", when(...)...)`
chain of `load_data`, applied to one raw label. -/
def normalizeLabel (s : String) : String :=
  let t := trimChars s.data
  if pat50 t then "≥50"
  else if pat04 t then "0-4"
  else if pat514 t then "5-14"
  else if pat1519 t then "15-19"
  else if pat2024 t then "20-24"
  else if pat2549 t then "25-49"
  else String.mk t

/-- The spec's representation of the normalizer: an explicit ordered list of
(predicate, canonical label) rules evaluated in sequence. -/
def ageRules : List ((List Char → Bool) × String) :=
  [(pat50, "≥50"), (pat04, "0-4"), (pat514, "5-14"),
   (pat1519, "15-19"), (pat2024, "20-24"), (pat2549, "25-49")]

/-- First rule of an ordered list whose predicate accepts the string. -/
def firstMatch : List ((List Char → Bool) × String) → List Char → Option String
  | [], _ => none
  | r :: rs, t => if r.1 t then some r.2 else firstMatch rs t

/-- Normalizer as the spec words it: trim, take the label of the first
matching pattern of the ordered rule list, else the trimmed original. -/
def normalizeSpec (s : String) : String :=
  match firstMatch ageRules (trimChars s.data) with
  | some lab => lab
  | none => String.mk (trimChars s.data)

/-! ### Generic list machinery: sorting and group-by -/

/-- Insert into a sorted list, before the first element not below `x`. -/
def insertBy {α : Type} (le : α → α → Bool) (x : α) : List α → List α
  | [] => [x]
  | y :: t => if le x y then x :: y :: t else y :: insertBy le x t

/-- Insertion sort by a boolean comparison (Spark's `orderBy`). -/
def sortBy {α : Type} (le : α → α → Bool) : List α → List α
  | [] => []
  | x :: t => insertBy le x (sortBy le t)

/-- Distinct elements in first-seen order, skipping those already `seen`. -/
def dedupFirstAux {α : Type} [DecidableEq α] (seen : List α) : List α → List α
  | [] => []
  | a :: t => if a ∈ seen then dedupFirstAux seen t else a :: dedupFirstAux (a :: seen) t

/-- Distinct key values of a table, in first-seen order. -/
def groupKeys {α : Type} [DecidableEq α] (key : Row → α) (rows : List Row) : List α :=
  dedupFirstAux [] (rows.map key)

/-- Sum of `Jumlah_Kasus` over the rows whose key equals `k`. -/
def fiberSum {α : Type} [DecidableEq α] (key : Row → α) (rows : List Row) (k : α) : Int :=
  ((rows.filter (fun r => decide (key r = k))).map (fun r => r.Jumlah_Kasus)).sum

/-- Spark `groupBy(key).agg(sum("Jumlah_Kasus"))`: one (key, total) pair per
distinct key, keys in first-seen order. -/
def groupSum {α : Type} [DecidableEq α] (key : Row → α) (rows : List Row) :
    List (α × Int) :=
  (groupKeys key rows).map (fun k => (k, fiberSum key rows k))

/-- Code-point lexicographic comparison of character lists (Spark's binary
string ordering). -/
def lexLe : List Char → List Char → Bool
  | [], _ => true
  | _ :: _, [] => false
  | a :: s, b :: t =>
    if a.toNat < b.toNat then true
    else if b.toNat < a.toNat then false
    else lexLe s t

/-- String comparison used by `orderBy("Kelompok_Umur")`. -/
def strLe (s t : String) : Bool := lexLe s.data t.data

/-! ### Filter engine and aggregation engine -/

/-- The sidebar filter: rows of the selected year whose region is among the
selected regions (`filtered_spark`). -/
def filterView (t : List Row) (y : Int) (regions : List String) : List Row :=
  t.filter (fun r => decide (r.Tahun = y ∧ r.Kabupaten_Kota ∈ regions))

/-- `total_kasus`: sum of `Jumlah_Kasus` over the view (`None` → 0 on the
empty view is the empty sum). -/
def totalCases (view : List Row) : Int :=
  (view.map (fun r => r.Jumlah_Kasus)).sum

/-- `df_gender`: per-gender totals, in the aggregation's row order. -/
def byGender (view : List Row) : List (String × Int) :=
  groupSum (fun r => r.Jenis_Kelamin) view

/-- `df_umur`: per-age-group totals ordered by label (`orderBy("Kelompok_Umur")`). -/
def df_umur (view : List Row) : List (String × Int) :=
  sortBy (fun p q => strLe p.1 q.1) (groupSum (fun r => r.Kelompok_Umur) view)

/-- The fixed display order of the recognized age buckets. -/
def desiredAgeOrder : List String := ["0-4", "5-14", "15-19", "20-24", "25-49", "≥50"]

/-- `unique_ages`: the distinct labels of `df_umur` in its row order. -/
def uniqueAges (view : List Row) : List String := (df_umur view).map Prod.fst

/-- `final_order`: desired buckets that occur, then the remaining labels of
`unique_ages` in their order there. -/
def finalAgeOrder (view : List Row) : List String :=
  desiredAgeOrder.filter (fun a => decide (a ∈ uniqueAges view))
    ++ (uniqueAges view).filter (fun a => !decide (a ∈ desiredAgeOrder))

/-- `df_umur` after the pandas categorical sort: its unique-keyed rows
reordered by `final_order`. -/
def byAgeGroupDisplay (view : List Row) : List (String × Int) :=
  (finalAgeOrder view).map (fun k => (k, fiberSum (fun r => r.Kelompok_Umur) view k))

/-- Distinct age-group labels of a view in first-seen order (used to state
what order the display does **not** use). -/
def ageKeysOf (view : List Row) : List String :=
  groupKeys (fun r => r.Kelompok_Umur) view

/-- The unrecognized labels of a view, sorted by the string order. -/
def unrecSorted (view : List Row) : List String :=
  (sortBy strLe (ageKeysOf view)).filter (fun a => !decide (a ∈ desiredAgeOrder))

/-- `df_trend_spark`: the canonical table filtered by region only (never by
year), grouped by year and ordered by year ascending. -/
def trendByYear (t : List Row) (regions : List String) : List (Int × Int) :=
  sortBy (fun p q => decide (p.1 ≤ q.1))
    (groupSum (fun r => r.Tahun) (t.filter (fun r => decide (r.Kabupaten_Kota ∈ regions))))

/-! ### Insight engine -/

/-- Pandas `idxmax` followed by `.loc`: the first entry attaining the maximal
total, `none` on the empty table. -/
def argmaxFirst {α : Type} : List (α × Int) → Option (α × Int)
  | [] => none
  | p :: t =>
    match argmaxFirst t with
    | none => some p
    | some q => if q.2 > p.2 then some q else some p

/-- `kelompok_dominan`: the dominant row of the displayed age table. -/
def kelompok_dominan (view : List Row) : Option (String × Int) :=
  argmaxFirst (byAgeGroupDisplay view)

/-- `gender_dom`: the dominant row of the gender table. -/
def gender_dom (view : List Row) : Option (String × Int) :=
  argmaxFirst (byGender view)

/-- Share of a dominant entry's total in the grand total:
`total / grand * 100`, and 0 when the grand total is 0 (Python's falsy
guard) or there is no dominant entry. -/
def pctOf {α : Type} (total : Int) : Option (α × Int) → ℚ
  | none => 0
  | some p => if total = 0 then 0 else (p.2 : ℚ) / (total : ℚ) * 100

/-- `age_pct`: share of the dominant age group, 0 when `total_kasus` is 0 or
the age table is empty. -/
def agePct (view : List Row) : ℚ :=
  pctOf (totalCases view) (kelompok_dominan view)

/-- `gender_pct`: share of the dominant gender, 0 when `total_kasus` is 0 or
the gender table is empty. -/
def genderPct (view : List Row) : ℚ :=
  pctOf (totalCases view) (gender_dom view)

/-- Python `list.index`: position of the first occurrence. -/
def posOf (y : Int) : List Int → Nat
  | [] => 0
  | a :: t => if a = y then 0 else posOf y t + 1

/-- The peak-year insight block: dominant trend entry by `idxmax`, then the
year-over-year text — numeric exactly when the peak's position in the
year-sorted series is positive and the previous value is nonzero, else
the "no prior data" marker (`none`). -/
def peakInsight (trend : List (Int × Int)) : Option (Int × Int × Option ℚ) :=
  match argmaxFirst trend with
  | none => none
  | some (ty, tv) =>
    let s := sortBy (fun p q => decide (p.1 ≤ q.1)) trend
    let years := s.map Prod.fst
    let vals := s.map Prod.snd
    if ty ∈ years then
      let idx := posOf ty years
      if idx > 0 ∧ vals.getD (idx - 1) 0 ≠ 0 then
        some (ty, tv,
          some (((tv : ℚ) - (vals.getD (idx - 1) 0 : ℚ)) / (vals.getD (idx - 1) 0 : ℚ) * 100))
      else some (ty, tv, none)
    else some (ty, tv, none)

/-- Value of the trend entry immediately preceding the entry of year `y`
(adjacency in the series), if any. -/
def prevValueIn : List (Int × Int) → Int → Option Int
  | [], _ => none
  | [_], _ => none
  | a :: b :: t, y => if b.1 = y then some a.2 else prevValueIn (b :: t) y

/-- Year-over-year result from a peak total and the optional predecessor
total: `none` (the "no prior data" text) without a nonzero predecessor,
else the percentage change. -/
def yoyFrom (tv : Int) : Option Int → Option ℚ
  | none => none
  | some pv => if pv = 0 then none else some (((tv : ℚ) - (pv : ℚ)) / (pv : ℚ) * 100)

/-! ### Per-interaction pipeline (the script body after the loader) -/

/-- Everything the dashboard body computes from one (year, regions) selection. -/
structure Outputs where
  totalKasus : Int
  umurTable : List (String × Int)
  genderTable : List (String × Int)
  trendTable : List (Int × Int)
  pctUmur : ℚ
  pctGender : ℚ
  puncak : Option (Int × Int × Option ℚ)
deriving DecidableEq

/-- The aggregates and insights of one interaction, in source order. -/
def computeOutputs (t : List Row) (y : Int) (regions : List String) : Outputs :=
  { totalKasus := totalCases (filterView t y regions)
    umurTable := byAgeGroupDisplay (filterView t y regions)
    genderTable := byGender (filterView t y regions)
    trendTable := trendByYear t regions
    pctUmur := agePct (filterView t y regions)
    pctGender := genderPct (filterView t y regions)
    puncak := peakInsight (trendByYear t regions) }

/-- The script body: when the filtered view is empty it warns and `st.stop()`s
(`none`); otherwise it computes every aggregate and insight. -/
def renderData (t : List Row) (y : Int) (regions : List String) : Option Outputs :=
  if filterView t y regions = [] then none else some (computeOutputs t y regions)

/-! ### Dataset loader (file access as an explicit environment) -/

/-- Load-time failures: the missing-file `FileNotFoundError` and any Spark
read/parse exception. -/
inductive LoadError
  | dataNotFound
  | readError (msg : String)
deriving DecidableEq

/-- Renaming plus the normalizer applied to every age-group label. -/
def canonicalize (t : List Row) : List Row :=
  t.map (fun r => { r with Kelompok_Umur := normalizeLabel r.Kelompok_Umur })

/-- `load_data` over an explicit filesystem: `none` means the CSV path does
not exist, `some (Except.error m)` a raised read/parse error, `some
(Except.ok raw)` the parsed raw table. -/
def load_data (fs : Option (Except String (List Row))) : Except LoadError (List Row) :=
  match fs with
  | none => Except.error LoadError.dataNotFound
  | some (Except.error m) => Except.error (LoadError.readError m)
  | some (Except.ok raw) => Except.ok (canonicalize raw)

/-- Outcome of startup: halted with a surfaced error (`st.error` +
`sys.exit(1)`), or proceeding to render with the canonical table. -/
inductive Startup
  | halted (e : LoadError)
  | dashboard (t : List Row)
deriving DecidableEq

/-- The `try: df_spark = load_data() except: ... sys.exit(1)` wrapper. -/
def startup (fs : Option (Except String (List Row))) : Startup :=
  match load_data fs with
  | Except.error e => Startup.halted e
  | Except.ok t => Startup.dashboard t

/-! ### Concrete tables used by witnesses and counterexamples -/

/-- The spec's example scenario, as the canonical table. -/
def exTable : List Row :=
  [⟨"Bandung", 10, "0-4", "L", 2022⟩,
   ⟨"Bandung", 5, "0-4", "P", 2022⟩,
   ⟨"Bandung", 8, "0-4", "L", 2021⟩]

/-- Table whose earlier year has a zero total: peak 2021 is not the earliest
year, yet its predecessor total is 0. -/
def zeroPrevTable : List Row :=
  [⟨"A", 0, "0-4", "L", 2020⟩,
   ⟨"A", 5, "0-4", "L", 2021⟩]

/-- Table whose two unrecognized labels occur in anti-alphabetical order. -/
def unrecTable : List Row :=
  [⟨"A", 1, "zzz", "L", 2022⟩,
   ⟨"A", 2, "aaa", "L", 2022⟩]

/-- Table with a gender tie, to exercise the first-of-ties rule. -/
def tieTable : List Row :=
  [⟨"A", 5, "0-4", "L", 2022⟩,
   ⟨"A", 5, "0-4", "P", 2022⟩]

/-- `p` is the first entry of `l` attaining the maximal total: everything
before it is strictly smaller, everything after it no larger. -/
def isFirstMax {α : Type} (l : List (α × Int)) (p : α × Int) : Prop :=
  ∃ pre post, l = pre ++ p :: post ∧ (∀ q ∈ pre, q.2 < p.2) ∧ (∀ q ∈ post, q.2 ≤ p.2)

/-! ## Lemmas -/

theorem sum_filter_partition {α : Type} (p : α → Bool) (f : α → Int) (l : List α) :
    ((l.filter p).map f).sum + ((l.filter (fun a => !p a)).map f).sum = (l.map f).sum := by
  induction l with
  | nil => simp
  | cons a t ih =>
    by_cases h : p a = true <;> simp [List.filter_cons, h] <;> omega

theorem dedupFirstAux_mem {α : Type} [DecidableEq α] (seen : List α) (l : List α) (a : α) :
    a ∈ dedupFirstAux seen l ↔ a ∈ l ∧ a ∉ seen := by
  induction l generalizing seen with
  | nil => simp [dedupFirstAux]
  | cons b t ih =>
    by_cases hb : b ∈ seen
    · simp only [dedupFirstAux, if_pos hb, ih, List.mem_cons]
      constructor
      · rintro ⟨h1, h2⟩; exact ⟨Or.inr h1, h2⟩
      · rintro ⟨h1 | h1, h2⟩
        · exact absurd (h1 ▸ hb) h2
        · exact ⟨h1, h2⟩
    · simp only [dedupFirstAux, if_neg hb, List.mem_cons, ih, List.mem_cons]
      constructor
      · rintro (h | ⟨h1, h2⟩)
        · exact ⟨Or.inl h, h ▸ hb⟩
        · exact ⟨Or.inr h1, fun hc => h2 (Or.inr hc)⟩
      · rintro ⟨h1 | h1, h2⟩
        · exact Or.inl h1
        · by_cases hab : a = b
          · exact Or.inl hab
          · exact Or.inr ⟨h1, fun hc => hc.elim hab h2⟩

theorem dedupFirstAux_nodup {α : Type} [DecidableEq α] (seen : List α) (l : List α) :
    (dedupFirstAux seen l).Nodup := by
  induction l generalizing seen with
  | nil => simp [dedupFirstAux]
  | cons b t ih =>
    by_cases hb : b ∈ seen
    · simpa [dedupFirstAux, if_pos hb] using ih seen
    · simp only [dedupFirstAux, if_neg hb, List.nodup_cons]
      refine ⟨fun hc => ?_, ih (b :: seen)⟩
      exact ((dedupFirstAux_mem _ _ _).1 hc).2 (List.mem_cons_self b seen)

theorem groupKeys_nodup {α : Type} [DecidableEq α] (key : Row → α) (rows : List Row) :
    (groupKeys key rows).Nodup := dedupFirstAux_nodup [] _

theorem mem_groupKeys {α : Type} [DecidableEq α] (key : Row → α) (rows : List Row) (k : α) :
    k ∈ groupKeys key rows ↔ k ∈ rows.map key := by
  simp [groupKeys, dedupFirstAux_mem]

theorem sum_fibers {α : Type} [DecidableEq α] (key : Row → α) :
    ∀ (ks : List α) (rows : List Row), ks.Nodup → (∀ r ∈ rows, key r ∈ ks) →
    (ks.map (fun k => fiberSum key rows k)).sum = totalCases rows := by
  intro ks
  induction ks with
  | nil =>
    intro rows _ hcov
    have : rows = [] := by
      cases rows with
      | nil => rfl
      | cons r t => exact absurd (hcov r (List.mem_cons_self r t)) (by simp)
    simp [this, totalCases]
  | cons k ks ih =>
    intro rows hnd hcov
    have hk := (List.nodup_cons.1 hnd).1
    have hnd' := (List.nodup_cons.1 hnd).2
    have hfib : ∀ k' ∈ ks, fiberSum key rows k' =
        fiberSum key (rows.filter (fun r => !decide (key r = k))) k' := by
      intro k' hk'
      have hne : k' ≠ k := fun h => hk (h ▸ hk')
      have heq : ∀ r ∈ rows, (decide (key r = k') && !decide (key r = k)) = decide (key r = k') := by
        intro r _
        by_cases h : key r = k'
        · simp [h, hne]
        · simp [h]
      simp only [fiberSum, List.filter_filter]
      rw [List.filter_congr heq]
    have hcov' : ∀ r ∈ rows.filter (fun r => !decide (key r = k)), key r ∈ ks := by
      intro r hr
      rcases List.mem_filter.1 hr with ⟨hr1, hr2⟩
      rcases List.mem_cons.1 (hcov r hr1) with h | h
      · simp [h] at hr2
      · exact h
    have hmap : (ks.map (fun k' => fiberSum key rows k')).sum =
        (ks.map (fun k' => fiberSum key (rows.filter (fun r => !decide (key r = k))) k')).sum := by
      congr 1
      exact List.map_congr_left hfib
    calc ((k :: ks).map (fun k' => fiberSum key rows k')).sum
        = fiberSum key rows k + (ks.map (fun k' => fiberSum key rows k')).sum := by
          simp
      _ = fiberSum key rows k +
          totalCases (rows.filter (fun r => !decide (key r = k))) := by
          rw [hmap, ih _ hnd' hcov']
      _ = totalCases rows := by
          simpa [fiberSum, totalCases] using
            sum_filter_partition (fun r => decide (key r = k)) (fun r => r.Jumlah_Kasus) rows

theorem groupSum_map_fst {α : Type} [DecidableEq α] (key : Row → α) (rows : List Row) :
    (groupSum key rows).map Prod.fst = groupKeys key rows := by
  rw [groupSum, List.map_map,
    show (Prod.fst ∘ fun k => (k, fiberSum key rows k)) = id from rfl, List.map_id]

theorem groupSum_snd_sum {α : Type} [DecidableEq α] (key : Row → α) (rows : List Row) :
    ((groupSum key rows).map Prod.snd).sum = totalCases rows := by
  have h : (groupSum key rows).map Prod.snd =
      (groupKeys key rows).map (fun k => fiberSum key rows k) := by
    rw [groupSum, List.map_map]; rfl
  rw [h]
  exact sum_fibers key _ rows (groupKeys_nodup key rows)
    (fun r hr => (mem_groupKeys key rows (key r)).2 (List.mem_map_of_mem key hr))

theorem perm_insertBy {α : Type} (le : α → α → Bool) (x : α) (l : List α) :
    List.Perm (insertBy le x l) (x :: l) := by
  induction l with
  | nil => exact List.Perm.refl _
  | cons y t ih =>
    by_cases h : le x y = true
    · simp [insertBy, h]
    · simp only [insertBy, if_neg h]
      exact (ih.cons y).trans (List.Perm.swap x y t)

theorem perm_sortBy {α : Type} (le : α → α → Bool) (l : List α) :
    List.Perm (sortBy le l) l := by
  induction l with
  | nil => exact List.Perm.refl _
  | cons x t ih => exact (perm_insertBy le x (sortBy le t)).trans (ih.cons x)

theorem mem_sortBy {α : Type} (le : α → α → Bool) (l : List α) (a : α) :
    a ∈ sortBy le l ↔ a ∈ l := (perm_sortBy le l).mem_iff

theorem pairwise_insertBy {α : Type} (le : α → α → Bool)
    (htot : ∀ a b, le a b = true ∨ le b a = true)
    (htrans : ∀ a b c, le a b = true → le b c = true → le a c = true)
    (x : α) (l : List α) (h : l.Pairwise (fun a b => le a b = true)) :
    (insertBy le x l).Pairwise (fun a b => le a b = true) := by
  induction l with
  | nil => simp [insertBy]
  | cons y t ih =>
    rcases List.pairwise_cons.1 h with ⟨hy, ht⟩
    by_cases hxy : le x y = true
    · simp only [insertBy, if_pos hxy]
      refine List.pairwise_cons.2 ⟨?_, h⟩
      intro b hb
      rcases List.mem_cons.1 hb with rfl | hb
      · exact hxy
      · exact htrans x y b hxy (hy b hb)
    · simp only [insertBy, if_neg hxy]
      refine List.pairwise_cons.2 ⟨?_, ih ht⟩
      intro b hb
      have hb' := (perm_insertBy le x t).mem_iff.1 hb
      rcases List.mem_cons.1 hb' with rfl | hb'
      · rcases htot y b with h' | h'
        · exact h'
        · exact absurd h' hxy
      · exact hy b hb'

theorem pairwise_sortBy {α : Type} (le : α → α → Bool)
    (htot : ∀ a b, le a b = true ∨ le b a = true)
    (htrans : ∀ a b c, le a b = true → le b c = true → le a c = true)
    (l : List α) : (sortBy le l).Pairwise (fun a b => le a b = true) := by
  induction l with
  | nil => simp [sortBy]
  | cons x t ih => exact pairwise_insertBy le htot htrans x (sortBy le t) ih

theorem sortBy_of_pairwise {α : Type} (le : α → α → Bool) (l : List α)
    (h : l.Pairwise (fun a b => le a b = true)) : sortBy le l = l := by
  induction l with
  | nil => rfl
  | cons x t ih =>
    rcases List.pairwise_cons.1 h with ⟨hx, ht⟩
    show insertBy le x (sortBy le t) = x :: t
    rw [ih ht]
    cases t with
    | nil => rfl
    | cons y t' =>
      show insertBy le x (y :: t') = x :: y :: t'
      rw [insertBy, if_pos (hx y (List.mem_cons_self y t'))]

theorem insertBy_map {α β : Type} (f : α → β) (le : β → β → Bool) (x : α) (l : List α) :
    (insertBy (fun a b => le (f a) (f b)) x l).map f = insertBy le (f x) (l.map f) := by
  induction l with
  | nil => rfl
  | cons y t ih =>
    by_cases h : le (f x) (f y) = true
    · simp [insertBy, h]
    · simp [insertBy, h, ih]

theorem sortBy_map {α β : Type} (f : α → β) (le : β → β → Bool) (l : List α) :
    (sortBy (fun a b => le (f a) (f b)) l).map f = sortBy le (l.map f) := by
  induction l with
  | nil => rfl
  | cons x t ih =>
    show (insertBy (fun a b => le (f a) (f b)) x (sortBy _ t)).map f = _
    rw [insertBy_map, ih]
    rfl

theorem lexLe_total : ∀ s t : List Char, lexLe s t = true ∨ lexLe t s = true := by
  intro s
  induction s with
  | nil => intro t; left; rfl
  | cons a s ih =>
    intro t
    cases t with
    | nil => right; rfl
    | cons b t =>
      by_cases h1 : a.toNat < b.toNat
      · left; simp [lexLe, h1]
      · by_cases h2 : b.toNat < a.toNat
        · right; simp [lexLe, h2]
        · rcases ih t with h | h
          · left; simp [lexLe, h1, h2, h]
          · right; simp [lexLe, h1, h2, h]

theorem lexLe_trans : ∀ s t u : List Char,
    lexLe s t = true → lexLe t u = true → lexLe s u = true := by
  intro s
  induction s with
  | nil => intro t u _ _; rfl
  | cons a s ih =>
    intro t u hst htu
    cases t with
    | nil => simp [lexLe] at hst
    | cons b t =>
      cases u with
      | nil => simp [lexLe] at htu
      | cons c u =>
        simp only [lexLe] at hst htu ⊢
        by_cases hab1 : a.toNat < b.toNat
        · by_cases hbc1 : b.toNat < c.toNat
          · simp [show a.toNat < c.toNat by omega]
          · by_cases hbc2 : c.toNat < b.toNat
            · simp [hbc1, hbc2] at htu
            · simp [show a.toNat < c.toNat by omega]
        · by_cases hab2 : b.toNat < a.toNat
          · simp [hab1, hab2] at hst
          · simp only [if_neg hab1, if_neg hab2] at hst
            by_cases hbc1 : b.toNat < c.toNat
            · simp [show a.toNat < c.toNat by omega]
            · by_cases hbc2 : c.toNat < b.toNat
              · simp [hbc1, hbc2] at htu
              · simp only [if_neg hbc1, if_neg hbc2] at htu
                have h1 : ¬ a.toNat < c.toNat := by omega
                have h2 : ¬ c.toNat < a.toNat := by omega
                simp [h1, h2, ih t u hst htu]

theorem strLe_total : ∀ s t : String, strLe s t = true ∨ strLe t s = true :=
  fun s t => lexLe_total s.data t.data

theorem strLe_trans : ∀ s t u : String,
    strLe s t = true → strLe t u = true → strLe s u = true :=
  fun s t u => lexLe_trans s.data t.data u.data

theorem argmaxFirst_isSome {α : Type} (l : List (α × Int)) (h : l ≠ []) :
    ∃ p, argmaxFirst l = some p := by
  cases l with
  | nil => exact absurd rfl h
  | cons p t =>
    simp only [argmaxFirst]
    cases ht : argmaxFirst t with
    | none => exact ⟨p, rfl⟩
    | some q =>
      by_cases hq : q.2 > p.2
      · exact ⟨q, by simp [hq]⟩
      · exact ⟨p, by simp [hq]⟩

theorem argmaxFirst_firstMax {α : Type} :
    ∀ (l : List (α × Int)) (p : α × Int), argmaxFirst l = some p → isFirstMax l p := by
  intro l
  induction l with
  | nil => intro p h; simp [argmaxFirst] at h
  | cons x t ih =>
    intro p h
    simp only [argmaxFirst] at h
    cases ht : argmaxFirst t with
    | none =>
      rw [ht] at h
      have hnil : t = [] := by
        cases t with
        | nil => rfl
        | cons y t' =>
          rcases argmaxFirst_isSome (y :: t') (by simp) with ⟨q, hq⟩
          rw [hq] at ht; cases ht
      subst hnil
      injection h with h
      subst h
      exact ⟨[], [], rfl, by simp, by simp⟩
    | some q =>
      rw [ht] at h
      have h' : (if q.2 > x.2 then some q else some x) = some p := h
      by_cases hq : q.2 > x.2
      · rw [if_pos hq] at h'
        injection h' with h
        subst h
        rcases ih q ht with ⟨pre, post, hdec, hpre, hpost⟩
        refine ⟨x :: pre, post, by rw [hdec]; rfl, ?_, hpost⟩
        intro r hr
        rcases List.mem_cons.1 hr with rfl | hr
        · exact hq
        · exact hpre r hr
      · rw [if_neg hq] at h'
        injection h' with h
        subst h
        refine ⟨[], t, rfl, by simp, ?_⟩
        intro r hr
        rcases ih q ht with ⟨pre, post, hdec, hpre, hpost⟩
        have hq' : q.2 ≤ x.2 := not_lt.1 hq
        subst hdec
        rcases List.mem_append.1 hr with hr | hr
        · exact le_of_lt (lt_of_lt_of_le (hpre r hr) hq')
        · rcases List.mem_cons.1 hr with rfl | hr
          · exact hq'
          · exact le_trans (hpost r hr) hq'

theorem argmaxFirst_mem {α : Type} (l : List (α × Int)) (p : α × Int)
    (h : argmaxFirst l = some p) : p ∈ l := by
  rcases argmaxFirst_firstMax l p h with ⟨pre, post, hdec, -, -⟩
  rw [hdec]
  exact List.mem_append.2 (Or.inr (List.mem_cons_self p post))

theorem beginsWith_iff : ∀ p s : List Char,
    beginsWith p s = true ↔ ∃ rest, s = p ++ rest := by
  intro p
  induction p with
  | nil => intro s; simp [beginsWith]
  | cons a p ih =>
    intro s
    cases s with
    | nil => simp [beginsWith]
    | cons c s =>
      simp only [beginsWith, Bool.and_eq_true, beq_iff_eq, ih, List.cons_append,
        List.cons.injEq]
      constructor
      · rintro ⟨rfl, rest, rfl⟩; exact ⟨rest, rfl, rfl⟩
      · rintro ⟨rest, rfl, rfl⟩; exact ⟨rfl, rest, rfl⟩

theorem matchHere_iff (a b s : List Char) :
    matchHere a b s = true ↔
      ∃ m rest, s = a ++ m ++ b ++ rest ∧
        (m = [] ∨ ∃ c, m = [c] ∧ dotChar c = true) := by
  constructor
  · intro h
    simp only [matchHere, Bool.and_eq_true, Bool.or_eq_true] at h
    rcases h with ⟨ha, hb⟩
    rcases (beginsWith_iff a s).1 ha with ⟨s', rfl⟩
    rw [List.drop_left] at hb
    rcases hb with hb | hb
    · rcases (beginsWith_iff b s').1 hb with ⟨rest, rfl⟩
      exact ⟨[], rest, by simp, Or.inl rfl⟩
    · cases s' with
      | nil => simp at hb
      | cons c s'' =>
        simp only [Bool.and_eq_true] at hb
        rcases hb with ⟨hc, hb⟩
        rcases (beginsWith_iff b s'').1 hb with ⟨rest, rfl⟩
        exact ⟨[c], rest, by simp, Or.inr ⟨c, rfl, hc⟩⟩
  · rintro ⟨m, rest, rfl, hm | ⟨c, rfl, hc⟩⟩
    · subst hm
      simp only [matchHere, Bool.and_eq_true, Bool.or_eq_true]
      refine ⟨(beginsWith_iff a _).2 ⟨b ++ rest, by simp⟩, Or.inl ?_⟩
      rw [show a ++ [] ++ b ++ rest = a ++ (b ++ rest) by simp, List.drop_left]
      exact (beginsWith_iff b _).2 ⟨rest, rfl⟩
    · simp only [matchHere, Bool.and_eq_true, Bool.or_eq_true]
      refine ⟨(beginsWith_iff a _).2 ⟨[c] ++ b ++ rest, by simp⟩, Or.inr ?_⟩
      rw [show a ++ [c] ++ b ++ rest = a ++ (c :: (b ++ rest)) by simp, List.drop_left]
      simp only [Bool.and_eq_true]
      exact ⟨hc, (beginsWith_iff b _).2 ⟨rest, rfl⟩⟩

theorem looseFind_iff : ∀ (a b s : List Char),
    looseFind a b s = true ↔ ∃ x rest, s = x ++ rest ∧ matchHere a b rest = true := by
  intro a b s
  induction s with
  | nil =>
    simp only [looseFind]
    constructor
    · intro h; exact ⟨[], [], rfl, h⟩
    · rintro ⟨x, rest, hx, h⟩
      rcases List.append_eq_nil.1 hx.symm with ⟨rfl, rfl⟩
      exact h
  | cons c s ih =>
    simp only [looseFind, Bool.or_eq_true, ih]
    constructor
    · rintro (h | ⟨x, rest, rfl, h⟩)
      · exact ⟨[], c :: s, rfl, h⟩
      · exact ⟨c :: x, rest, rfl, h⟩
    · rintro ⟨x, rest, hx, h⟩
      cases x with
      | nil => left; rw [List.nil_append] at hx; exact hx.symm ▸ h
      | cons d x =>
        right
        rw [List.cons_append, List.cons.injEq] at hx
        exact ⟨x, rest, hx.2, h⟩

theorem looseFind_chars (a b s : List Char) :
    looseFind a b s = true ↔
      ∃ x m y, s = x ++ a ++ m ++ b ++ y ∧
        (m = [] ∨ ∃ c, m = [c] ∧ dotChar c = true) := by
  rw [looseFind_iff]
  constructor
  · rintro ⟨x, rest, rfl, h⟩
    rcases (matchHere_iff a b rest).1 h with ⟨m, y, rfl, hm⟩
    exact ⟨x, m, y, by simp, hm⟩
  · rintro ⟨x, m, y, rfl, hm⟩
    refine ⟨x, a ++ m ++ b ++ y, by simp, ?_⟩
    exact (matchHere_iff a b _).2 ⟨m, y, rfl, hm⟩

theorem intPairLe_total : ∀ a b : Int × Int,
    decide (a.1 ≤ b.1) = true ∨ decide (b.1 ≤ a.1) = true := by
  intro a b
  rcases le_total a.1 b.1 with h | h
  · left; simp [h]
  · right; simp [h]

theorem intPairLe_trans : ∀ a b c : Int × Int,
    decide (a.1 ≤ b.1) = true → decide (b.1 ≤ c.1) = true → decide (a.1 ≤ c.1) = true := by
  intro a b c h1 h2
  simp only [decide_eq_true_eq] at h1 h2 ⊢
  exact le_trans h1 h2

theorem trend_pairwise (tab : List Row) (r : List String) :
    (trendByYear tab r).Pairwise (fun p q => p.1 < q.1) := by
  have hle : (trendByYear tab r).Pairwise
      (fun p q : Int × Int => decide (p.1 ≤ q.1) = true) :=
    pairwise_sortBy _ intPairLe_total intPairLe_trans _
  have hperm : List.Perm (trendByYear tab r)
      (groupSum (fun row => row.Tahun)
        (tab.filter (fun row => decide (row.Kabupaten_Kota ∈ r)))) :=
    perm_sortBy _ _
  have hnodup : ((trendByYear tab r).map Prod.fst).Nodup := by
    refine (hperm.map Prod.fst).nodup_iff.2 ?_
    rw [groupSum_map_fst]
    exact groupKeys_nodup _ _
  have hne : (trendByYear tab r).Pairwise (fun p q => p.1 ≠ q.1) :=
    List.pairwise_map.1 hnodup
  exact (hle.and hne).imp (fun h => lt_of_le_of_ne (by simpa using h.1) h.2)

theorem posOf_append (ys : List Int) (y : Int) (rest : List Int) (h : y ∉ ys) :
    posOf y (ys ++ y :: rest) = ys.length := by
  induction ys with
  | nil => simp [posOf]
  | cons a t ih =>
    have ha : a ≠ y := fun e => h (e ▸ List.mem_cons_self a t)
    have ht : y ∉ t := fun hc => h (List.mem_cons_of_mem a hc)
    simp only [List.cons_append, posOf, if_neg ha, List.length_cons]
    rw [show t.append (y :: rest) = t ++ y :: rest from rfl, ih ht]

theorem getD_last_append : ∀ (pre : List Int) (c : Int) (rest : List Int),
    ((c :: pre) ++ rest).getD pre.length 0 = (c :: pre).getLast (List.cons_ne_nil c pre) := by
  intro pre
  induction pre with
  | nil => intro c rest; simp
  | cons d pre ih =>
    intro c rest
    show ((c :: d :: pre) ++ rest).getD (pre.length + 1) 0 = _
    rw [List.cons_append, List.getD_cons_succ,
      show ((d :: pre) ++ rest).getD pre.length 0
        = (d :: pre).getLast (List.cons_ne_nil d pre) from ih d rest,
      List.getLast_cons (List.cons_ne_nil d pre)]

theorem getLast_map_snd : ∀ (l : List (Int × Int)) (c : Int × Int),
    (c.2 :: l.map Prod.snd).getLast (List.cons_ne_nil _ _)
      = ((c :: l).getLast (List.cons_ne_nil c l)).2 := by
  intro l
  induction l with
  | nil => intro c; simp
  | cons d l ih =>
    intro c
    show (c.2 :: d.2 :: l.map Prod.snd).getLast (List.cons_ne_nil _ _) = _
    rw [List.getLast_cons (List.cons_ne_nil _ _),
      List.getLast_cons (List.cons_ne_nil d l), ih d]

theorem prevValueIn_not_mem : ∀ (l : List (Int × Int)) (a : Int × Int) (y : Int),
    y ∉ l.map Prod.fst → prevValueIn (a :: l) y = none := by
  intro l
  induction l with
  | nil => intro a y _; rfl
  | cons b t ih =>
    intro a y h
    have hb : b.1 ≠ y := by
      intro e
      exact h (by simp [e])
    have ht : y ∉ t.map Prod.fst := by
      intro hc
      exact h (by simp [hc])
    show (if b.1 = y then some a.2 else prevValueIn (b :: t) y) = none
    rw [if_neg hb, ih b y ht]

theorem prevValueIn_cons_pre : ∀ (pre : List (Int × Int)) (c p : Int × Int)
    (post : List (Int × Int)), p.1 ∉ (c :: pre).map Prod.fst →
    prevValueIn ((c :: pre) ++ p :: post) p.1
      = some (((c :: pre).getLast (List.cons_ne_nil c pre)).2) := by
  intro pre
  induction pre with
  | nil =>
    intro c p post _
    show (if p.1 = p.1 then some c.2 else prevValueIn (p :: post) p.1) = _
    rw [if_pos rfl]
    simp
  | cons d pre ih =>
    intro c p post h
    have hd : d.1 ≠ p.1 := by
      intro e
      exact (by simp [e] : p.1 ∈ (c :: d :: pre).map Prod.fst) |> h
    have h' : p.1 ∉ (d :: pre).map Prod.fst := by
      intro hc
      rcases List.mem_cons.1 hc with e | e
      · exact h (by simp [e.symm])
      · exact h (by simp; right; right; simpa using e)
    show (if d.1 = p.1 then some c.2 else prevValueIn ((d :: pre) ++ p :: post) p.1) = _
    rw [if_neg hd, ih d p post h', List.getLast_cons (List.cons_ne_nil d pre)]

theorem peakInsight_eq_some (trend : List (Int × Int)) (ty tv : Int)
    (h : argmaxFirst trend = some (ty, tv)) :
    peakInsight trend =
      (if ty ∈ (sortBy (fun p q : Int × Int => decide (p.1 ≤ q.1)) trend).map Prod.fst then
        if posOf ty ((sortBy (fun p q : Int × Int => decide (p.1 ≤ q.1)) trend).map Prod.fst) > 0
            ∧ ((sortBy (fun p q : Int × Int => decide (p.1 ≤ q.1)) trend).map Prod.snd).getD
                (posOf ty ((sortBy (fun p q : Int × Int => decide (p.1 ≤ q.1)) trend).map Prod.fst) - 1) 0 ≠ 0 then
          some (ty, tv, some (((tv : ℚ) -
              (((sortBy (fun p q : Int × Int => decide (p.1 ≤ q.1)) trend).map Prod.snd).getD
                (posOf ty ((sortBy (fun p q : Int × Int => decide (p.1 ≤ q.1)) trend).map Prod.fst) - 1) 0 : ℚ)) /
              (((sortBy (fun p q : Int × Int => decide (p.1 ≤ q.1)) trend).map Prod.snd).getD
                (posOf ty ((sortBy (fun p q : Int × Int => decide (p.1 ≤ q.1)) trend).map Prod.fst) - 1) 0 : ℚ) * 100))
        else some (ty, tv, none)
      else some (ty, tv, none)) := by
  unfold peakInsight
  rw [h]

theorem peakInsight_sorted (t : List (Int × Int))
    (hs : t.Pairwise (fun p q => p.1 < q.1))
    (ty tv : Int) (hmax : argmaxFirst t = some (ty, tv)) :
    peakInsight t = some (ty, tv, yoyFrom tv (prevValueIn t ty)) := by
  obtain ⟨pre, post, hdec, hpre, hpost⟩ := argmaxFirst_firstMax t _ hmax
  have hle : t.Pairwise (fun p q : Int × Int => decide (p.1 ≤ q.1) = true) :=
    hs.imp (fun h => by simp [le_of_lt h])
  have hsort : sortBy (fun p q : Int × Int => decide (p.1 ≤ q.1)) t = t :=
    sortBy_of_pairwise _ _ hle
  have hne : t.Pairwise (fun p q => p.1 ≠ q.1) := hs.imp ne_of_lt
  subst hdec
  rcases List.pairwise_append.1 hne with ⟨-, hne2, hne3⟩
  have hprene : ty ∉ pre.map Prod.fst := by
    intro hc
    rcases List.mem_map.1 hc with ⟨q, hq, hq1⟩
    exact hne3 q hq (ty, tv) (List.mem_cons_self _ _) hq1
  have hpostne : ty ∉ post.map Prod.fst := by
    intro hc
    rcases List.mem_map.1 hc with ⟨q, hq, hq1⟩
    exact (List.pairwise_cons.1 hne2).1 q hq hq1.symm
  rw [peakInsight_eq_some _ _ _ hmax, hsort]
  have hyears : (pre ++ (ty, tv) :: post).map Prod.fst
      = pre.map Prod.fst ++ ty :: post.map Prod.fst := by simp
  have hvals : (pre ++ (ty, tv) :: post).map Prod.snd
      = pre.map Prod.snd ++ tv :: post.map Prod.snd := by simp
  rw [hyears, hvals]
  have hmem : ty ∈ pre.map Prod.fst ++ ty :: post.map Prod.fst := by simp
  rw [if_pos hmem, posOf_append _ _ _ hprene, List.length_map]
  cases pre with
  | nil =>
    rw [if_neg (by simp)]
    simp only [List.nil_append]
    rw [prevValueIn_not_mem post (ty, tv) ty hpostne]
    simp [yoyFrom]
  | cons c pre' =>
    have hgd : ((c :: pre').map Prod.snd ++ tv :: post.map Prod.snd).getD
        ((c :: pre').length - 1) 0 = ((c :: pre').getLast (List.cons_ne_nil c pre')).2 := by
      show ((c.2 :: pre'.map Prod.snd) ++ tv :: post.map Prod.snd).getD
          (pre'.length) 0 = _
      rw [show pre'.length = (pre'.map Prod.snd).length by rw [List.length_map],
        getD_last_append, getLast_map_snd]
    rw [prevValueIn_cons_pre pre' c (ty, tv) post hprene]
    by_cases hpv : ((c :: pre').getLast (List.cons_ne_nil c pre')).2 = 0
    · rw [if_neg (by rw [hgd]; simp [hpv])]
      simp [yoyFrom, hpv]
    · rw [if_pos ⟨by simp, by rw [hgd]; exact hpv⟩, hgd]
      simp [yoyFrom, hpv]

theorem uniqueAges_eq (view : List Row) :
    uniqueAges view = sortBy strLe (ageKeysOf view) := by
  unfold uniqueAges df_umur ageKeysOf
  rw [sortBy_map Prod.fst strLe, groupSum_map_fst]

theorem mem_uniqueAges (view : List Row) (a : String) :
    a ∈ uniqueAges view ↔ a ∈ ageKeysOf view := by
  rw [uniqueAges_eq, mem_sortBy]

theorem uniqueAges_nodup (view : List Row) : (uniqueAges view).Nodup := by
  rw [uniqueAges_eq]
  exact (perm_sortBy _ _).nodup_iff.2 (groupKeys_nodup _ _)

theorem desired_nodup : desiredAgeOrder.Nodup := by decide

theorem finalAgeOrder_perm (view : List Row) :
    List.Perm (finalAgeOrder view) (uniqueAges view) := by
  unfold finalAgeOrder
  have h1 : List.Perm (desiredAgeOrder.filter (fun a => decide (a ∈ uniqueAges view)))
      ((uniqueAges view).filter (fun a => decide (a ∈ desiredAgeOrder))) := by
    refine (List.perm_ext_iff_of_nodup (desired_nodup.filter _)
      ((uniqueAges_nodup view).filter _)).2 ?_
    intro a
    simp only [List.mem_filter, decide_eq_true_eq]
    tauto
  have h2 : List.Perm ((uniqueAges view).filter (fun a => decide (a ∈ desiredAgeOrder))
      ++ (uniqueAges view).filter (fun a => !decide (a ∈ desiredAgeOrder)))
      (uniqueAges view) :=
    List.filter_append_perm _ _
  exact (h1.append_right _).trans h2

theorem finalAgeOrder_perm_keys (view : List Row) :
    List.Perm (finalAgeOrder view) (ageKeysOf view) := by
  refine (finalAgeOrder_perm view).trans ?_
  rw [uniqueAges_eq]
  exact perm_sortBy _ _

theorem byAgeGroupDisplay_snd_sum (view : List Row) :
    ((byAgeGroupDisplay view).map Prod.snd).sum = totalCases view := by
  unfold byAgeGroupDisplay
  rw [List.map_map]
  show ((finalAgeOrder view).map (fun k => fiberSum (fun r => r.Kelompok_Umur) view k)).sum = _
  rw [((finalAgeOrder_perm_keys view).map
    (fun k => fiberSum (fun r => r.Kelompok_Umur) view k)).sum_eq]
  exact sum_fibers _ _ _ (groupKeys_nodup _ _)
    (fun r hr => (mem_groupKeys _ _ _).2 (List.mem_map_of_mem _ hr))

theorem byGender_snd_sum (view : List Row) :
    ((byGender view).map Prod.snd).sum = totalCases view :=
  groupSum_snd_sum _ _

theorem fiberSum_nonneg {α : Type} [DecidableEq α] (key : Row → α) (view : List Row)
    (k : α) (hnn : ∀ r ∈ view, 0 ≤ r.Jumlah_Kasus) : 0 ≤ fiberSum key view k := by
  apply List.sum_nonneg
  intro x hx
  rcases List.mem_map.1 hx with ⟨r, hr, rfl⟩
  exact hnn r (List.mem_of_mem_filter hr)

theorem byAgeGroupDisplay_snd_nonneg (view : List Row)
    (hnn : ∀ r ∈ view, 0 ≤ r.Jumlah_Kasus) :
    ∀ x ∈ (byAgeGroupDisplay view).map Prod.snd, 0 ≤ x := by
  intro x hx
  rcases List.mem_map.1 hx with ⟨p, hp, rfl⟩
  rcases List.mem_map.1 hp with ⟨k, -, rfl⟩
  exact fiberSum_nonneg _ _ _ hnn

theorem byGender_snd_nonneg (view : List Row)
    (hnn : ∀ r ∈ view, 0 ≤ r.Jumlah_Kasus) :
    ∀ x ∈ (byGender view).map Prod.snd, 0 ≤ x := by
  intro x hx
  rcases List.mem_map.1 hx with ⟨p, hp, rfl⟩
  rcases List.mem_map.1 hp with ⟨k, -, rfl⟩
  exact fiberSum_nonneg _ _ _ hnn

theorem pct_bounds (total : Int) (v : Int) (hv0 : 0 ≤ v) (hvt : v ≤ total)
    (ht : total ≠ 0) :
    0 ≤ (v : ℚ) / (total : ℚ) * 100 ∧ (v : ℚ) / (total : ℚ) * 100 ≤ 100 := by
  have htpos : 0 < total := lt_of_le_of_ne (le_trans hv0 hvt) (Ne.symm ht)
  have htq : (0 : ℚ) < (total : ℚ) := by exact_mod_cast htpos
  constructor
  · apply mul_nonneg _ (by norm_num)
    exact div_nonneg (by exact_mod_cast hv0) (le_of_lt htq)
  · have h1 : (v : ℚ) / (total : ℚ) ≤ 1 := by
      rw [div_le_one htq]
      exact_mod_cast hvt
    calc (v : ℚ) / (total : ℚ) * 100 ≤ 1 * 100 :=
          mul_le_mul_of_nonneg_right h1 (by norm_num)
      _ = 100 := one_mul 100

theorem pct_spec_one {α : Type} (view : List Row) (tbl : List (α × Int))
    (hsum : (tbl.map Prod.snd).sum = totalCases view)
    (hpos : ∀ x ∈ tbl.map Prod.snd, 0 ≤ x) :
    0 ≤ pctOf (totalCases view) (argmaxFirst tbl)
    ∧ pctOf (totalCases view) (argmaxFirst tbl) ≤ 100
    ∧ (totalCases view = 0 → pctOf (totalCases view) (argmaxFirst tbl) = 0) := by
  cases hm : argmaxFirst tbl with
  | none => simp [pctOf]
  | some p =>
    by_cases h0 : totalCases view = 0
    · simp [pctOf, h0]
    · have hmem : p.2 ∈ tbl.map Prod.snd :=
        List.mem_map_of_mem _ (argmaxFirst_mem _ _ hm)
      have h1 : 0 ≤ p.2 := hpos _ hmem
      have h2 : p.2 ≤ totalCases view := hsum ▸ List.single_le_sum hpos _ hmem
      rcases pct_bounds (totalCases view) p.2 h1 h2 h0 with ⟨hb1, hb2⟩
      refine ⟨?_, ?_, fun hc => absurd hc h0⟩
      · simpa [pctOf, h0] using hb1
      · simpa [pctOf, h0] using hb2

theorem peakInsight_some_argmax (l : List (Int × Int)) (ty tv : Int) (yy : Option ℚ)
    (h : peakInsight l = some (ty, tv, yy)) : argmaxFirst l = some (ty, tv) := by
  cases hm : argmaxFirst l with
  | none =>
    unfold peakInsight at h
    rw [hm] at h
    cases h
  | some p =>
    obtain ⟨a, b⟩ := p
    rw [peakInsight_eq_some l a b hm] at h
    split at h
    · split at h
      · simp only [Option.some.injEq, Prod.mk.injEq] at h
        rw [h.1, h.2.1]
      · simp only [Option.some.injEq, Prod.mk.injEq] at h
        rw [h.1, h.2.1]
    · simp only [Option.some.injEq, Prod.mk.injEq] at h
      rw [h.1, h.2.1]

theorem display_order_spec (view : List Row) :
    (byAgeGroupDisplay view).map Prod.fst
      = desiredAgeOrder.filter (fun a => decide (a ∈ ageKeysOf view)) ++ unrecSorted view
    ∧ (unrecSorted view).Pairwise (fun a b => strLe a b = true)
    ∧ (∀ a, a ∈ unrecSorted view ↔ (a ∈ ageKeysOf view ∧ a ∉ desiredAgeOrder)) := by
  refine ⟨?_, ?_, ?_⟩
  · unfold byAgeGroupDisplay
    rw [List.map_map,
      show (Prod.fst ∘ fun k => (k, fiberSum (fun r => r.Kelompok_Umur) view k)) = id from rfl,
      List.map_id]
    unfold finalAgeOrder unrecSorted
    rw [uniqueAges_eq]
    congr 1
    apply List.filter_congr
    intro a _
    exact decide_eq_decide.2 (mem_sortBy strLe (ageKeysOf view) a)
  · exact List.Pairwise.filter _ (pairwise_sortBy strLe strLe_total strLe_trans _)
  · intro a
    unfold unrecSorted
    simp [List.mem_filter, mem_sortBy]

/-! ## The claims -/

/-- C1: for every raw age-group label string, the normalizer strips the
surrounding spaces, tests the trimmed string against the ordered pattern
list (≥50-marker, loose 0-4, loose 5-14 or literal 14-May, loose 15-19,
loose 20-24, loose 25-49) and returns the canonical label of the first
pattern that matches; with no match it returns the trimmed original
unchanged.  Stated as: the `when`-chain equals the spec's
first-match-wins evaluation of the ordered rule list. -/
theorem claim_C1_normalizer_first_match :
    ∀ s : String, normalizeLabel s = normalizeSpec s := by
  intro s
  simp only [normalizeLabel, normalizeSpec, ageRules, firstMatch]
  by_cases h1 : pat50 (trimChars s.data) = true
  · simp [h1]
  · by_cases h2 : pat04 (trimChars s.data) = true
    · simp [h1, h2]
    · by_cases h3 : pat514 (trimChars s.data) = true
      · simp [h1, h2, h3]
      · by_cases h4 : pat1519 (trimChars s.data) = true
        · simp [h1, h2, h3, h4]
        · by_cases h5 : pat2024 (trimChars s.data) = true
          · simp [h1, h2, h3, h4, h5]
          · by_cases h6 : pat2549 (trimChars s.data) = true
            · simp [h1, h2, h3, h4, h5, h6]
            · simp [h1, h2, h3, h4, h5, h6]

/-- C2: the trend series is computed from the canonical table filtered by
region only, so two interactions that differ only in the selected year
(and both pass the non-empty gate) produce the same trend series. -/
theorem claim_C2_trend_year_invariant (t : List Row) (r : List String) (y1 y2 : Int)
    (o1 o2 : Outputs) (h1 : renderData t y1 r = some o1)
    (h2 : renderData t y2 r = some o2) : o1.trendTable = o2.trendTable := by
  unfold renderData at h1 h2
  by_cases hc1 : filterView t y1 r = []
  · rw [if_pos hc1] at h1; cases h1
  · rw [if_neg hc1] at h1
    by_cases hc2 : filterView t y2 r = []
    · rw [if_pos hc2] at h2; cases h2
    · rw [if_neg hc2] at h2
      injection h1 with h1
      injection h2 with h2
      rw [← h1, ← h2]
      rfl

theorem claim_C2_witness :
    (computeOutputs exTable 2021 ["Bandung"]).trendTable
      = (computeOutputs exTable 2022 ["Bandung"]).trendTable :=
  claim_C2_trend_year_invariant exTable ["Bandung"] 2021 2022 _ _ (by rfl) (by rfl)

/-- C3: on every non-empty filtered view, `total_kasus` equals the sum of the
per-age-group totals and equals the sum of the per-gender totals. -/
theorem claim_C3_aggregation_consistency (tab : List Row) (y : Int) (r : List String)
    (_hne : filterView tab y r ≠ []) :
    totalCases (filterView tab y r)
        = ((byAgeGroupDisplay (filterView tab y r)).map Prod.snd).sum
    ∧ totalCases (filterView tab y r)
        = ((byGender (filterView tab y r)).map Prod.snd).sum :=
  ⟨(byAgeGroupDisplay_snd_sum _).symm, (byGender_snd_sum _).symm⟩

theorem claim_C3_witness :
    filterView exTable 2022 ["Bandung"] ≠ []
    ∧ (totalCases (filterView exTable 2022 ["Bandung"])
          = ((byAgeGroupDisplay (filterView exTable 2022 ["Bandung"])).map Prod.snd).sum
      ∧ totalCases (filterView exTable 2022 ["Bandung"])
          = ((byGender (filterView exTable 2022 ["Bandung"])).map Prod.snd).sum) :=
  ⟨by decide, claim_C3_aggregation_consistency exTable 2022 ["Bandung"] (by decide)⟩

/-- C4 as stated is false: the regex `.?` also matches the empty separator,
and `rlike` matches anywhere in the string.  At the concrete input "04" the
loose 0-4 pattern matches with zero characters between the endpoints, and at
"x0-4y" it matches inside a longer string. -/
theorem claim_C4_counterexample :
    pat04 "04".data = true ∧ pat04 "x0-4y".data = true
    ∧ normalizeLabel "04" = "0-4" := by decide

/-- C4 (amended): a loose pattern `a.?b` matches exactly the strings that
contain, as a substring, the first endpoint, then at most one arbitrary
non-line-terminator character, then the second endpoint. -/
theorem claim_C4_loose_pattern_semantics :
    ∀ a b s : List Char,
      looseFind a b s = true ↔
        ∃ x m y, s = x ++ a ++ m ++ b ++ y ∧
          (m = [] ∨ ∃ c, m = [c] ∧ dotChar c = true) :=
  looseFind_chars

/-- C6: an empty region selection always filters to the empty view, and any
empty filtered view takes the warn-and-stop path (`none`), never reaching
the aggregation stage. -/
theorem claim_C6_empty_filter_short_circuit :
    (∀ (tab : List Row) (y : Int), filterView tab y [] = [])
    ∧ (∀ (tab : List Row) (y : Int) (r : List String),
        filterView tab y r = [] → renderData tab y r = none) := by
  constructor
  · intro tab y
    simp [filterView]
  · intro tab y r h
    unfold renderData
    rw [if_pos h]

/-- C7: with non-negative case counts, the dominant-age and dominant-gender
percentages lie in [0, 100], and both are 0 when `total_kasus` is 0. -/
theorem claim_C7_percentages_bounded (tab : List Row) (y : Int) (r : List String)
    (hnn : ∀ row ∈ filterView tab y r, 0 ≤ row.Jumlah_Kasus) :
    0 ≤ agePct (filterView tab y r) ∧ agePct (filterView tab y r) ≤ 100
    ∧ 0 ≤ genderPct (filterView tab y r) ∧ genderPct (filterView tab y r) ≤ 100
    ∧ (totalCases (filterView tab y r) = 0 →
        agePct (filterView tab y r) = 0 ∧ genderPct (filterView tab y r) = 0) := by
  have hage := pct_spec_one (filterView tab y r) (byAgeGroupDisplay (filterView tab y r))
    (byAgeGroupDisplay_snd_sum _) (byAgeGroupDisplay_snd_nonneg _ hnn)
  have hgen := pct_spec_one (filterView tab y r) (byGender (filterView tab y r))
    (byGender_snd_sum _) (byGender_snd_nonneg _ hnn)
  exact ⟨hage.1, hage.2.1, hgen.1, hgen.2.1, fun h0 => ⟨hage.2.2 h0, hgen.2.2 h0⟩⟩

theorem claim_C7_witness :
    (∀ row ∈ filterView exTable 2022 ["Bandung"], 0 ≤ row.Jumlah_Kasus)
    ∧ (0 ≤ agePct (filterView exTable 2022 ["Bandung"])
      ∧ agePct (filterView exTable 2022 ["Bandung"]) ≤ 100
      ∧ 0 ≤ genderPct (filterView exTable 2022 ["Bandung"])
      ∧ genderPct (filterView exTable 2022 ["Bandung"]) ≤ 100
      ∧ (totalCases (filterView exTable 2022 ["Bandung"]) = 0 →
          agePct (filterView exTable 2022 ["Bandung"]) = 0
          ∧ genderPct (filterView exTable 2022 ["Bandung"]) = 0)) :=
  ⟨by decide, claim_C7_percentages_bounded exTable 2022 ["Bandung"] (by decide)⟩

/-- C8: startup fails with the dedicated file-not-found error when the CSV
path does not exist, every load-time error halts startup with that error
surfaced, and the dashboard renders only from a successfully loaded table. -/
theorem claim_C8_loader_fatal_errors :
    startup none = Startup.halted LoadError.dataNotFound
    ∧ (∀ fs e, load_data fs = Except.error e → startup fs = Startup.halted e)
    ∧ (∀ fs t, startup fs = Startup.dashboard t → load_data fs = Except.ok t) := by
  refine ⟨rfl, ?_, ?_⟩
  · intro fs e h
    unfold startup
    rw [h]
  · intro fs t h
    unfold startup at h
    cases hl : load_data fs with
    | error e => rw [hl] at h; cases h
    | ok tt =>
      rw [hl] at h
      injection h with h
      rw [h]

/-- C9 as stated is false: the unrecognized labels are appended in the
string-sorted order produced by `orderBy("Kelompok_Umur")`, not in
first-seen order.  In a view whose rows carry "zzz" before "aaa", the
display order is ["aaa", "zzz"] while first-seen order is ["zzz", "aaa"]. -/
theorem claim_C9_counterexample :
    (byAgeGroupDisplay (filterView unrecTable 2022 ["A"])).map Prod.fst = ["aaa", "zzz"]
    ∧ ageKeysOf (filterView unrecTable 2022 ["A"]) = ["zzz", "aaa"]
    ∧ (["aaa", "zzz"] : List String) ≠ ["zzz", "aaa"] := by decide

/-- C9 (amended): the displayed age table lists the recognized buckets that
occur, first, in the fixed enumerated order, followed by the unrecognized
labels in ascending lexicographic (code-point) order. -/
theorem claim_C9_display_order (tab : List Row) (y : Int) (r : List String) :
    (byAgeGroupDisplay (filterView tab y r)).map Prod.fst
      = desiredAgeOrder.filter (fun a => decide (a ∈ ageKeysOf (filterView tab y r)))
        ++ unrecSorted (filterView tab y r)
    ∧ (unrecSorted (filterView tab y r)).Pairwise (fun a b => strLe a b = true)
    ∧ (∀ a, a ∈ unrecSorted (filterView tab y r)
        ↔ (a ∈ ageKeysOf (filterView tab y r) ∧ a ∉ desiredAgeOrder)) :=
  display_order_spec (filterView tab y r)

/-- C10: each insight's `idxmax` selection resolves ties to the first row of
its table: the first tied bucket in the age display order, the first tied
row of the gender aggregation, and for the peak year the first tied entry of
the ascending-by-year series, which is the earliest tied year. -/
theorem claim_C10_tie_break_first (tab : List Row) (y : Int) (r : List String) :
    (∀ p, kelompok_dominan (filterView tab y r) = some p →
        isFirstMax (byAgeGroupDisplay (filterView tab y r)) p)
    ∧ (∀ p, gender_dom (filterView tab y r) = some p →
        isFirstMax (byGender (filterView tab y r)) p)
    ∧ (∀ ty tv yy, peakInsight (trendByYear tab r) = some (ty, tv, yy) →
        isFirstMax (trendByYear tab r) (ty, tv)
        ∧ ∀ q ∈ trendByYear tab r, q.2 = tv → ty ≤ q.1) := by
  refine ⟨fun p h => argmaxFirst_firstMax _ p h, fun p h => argmaxFirst_firstMax _ p h, ?_⟩
  intro ty tv yy h
  have hmax : argmaxFirst (trendByYear tab r) = some (ty, tv) :=
    peakInsight_some_argmax _ _ _ _ h
  refine ⟨argmaxFirst_firstMax _ _ hmax, ?_⟩
  intro q hq hqv
  obtain ⟨pre, post, hdec, hpre, hpost⟩ := argmaxFirst_firstMax _ _ hmax
  have hs := trend_pairwise tab r
  rw [hdec] at hq hs
  rcases List.mem_append.1 hq with hq | hq
  · exact absurd hqv (ne_of_lt (hpre q hq))
  · rcases List.mem_cons.1 hq with rfl | hq
    · exact le_refl _
    · rcases List.pairwise_append.1 hs with ⟨-, h2, -⟩
      exact le_of_lt ((List.pairwise_cons.1 h2).1 q hq)

/-- C5 as stated is false: the year-over-year delta of the peak year is also
reported as unavailable when the peak year has a predecessor in the series
whose total is zero.  Concretely, at a table with totals 0 in 2020 and 5 in
2021, the peak year 2021 is not the earliest year, yet the delta is the
unavailable marker. -/
theorem claim_C5_counterexample :
    trendByYear zeroPrevTable ["A"] = [(2020, 0), (2021, 5)]
    ∧ peakInsight (trendByYear zeroPrevTable ["A"]) = some (2021, 5, none)
    ∧ (trendByYear zeroPrevTable ["A"]).head?.map Prod.fst = some 2020
    ∧ (2021 : Int) ≠ 2020 := by decide

/-- C5 (amended): for a non-empty trend series the peak-year delta is the
unavailable marker exactly when the peak year is the earliest year of the
series or the immediately preceding entry's total is zero, and in every
other case it is the numeric percentage change versus that preceding
entry. -/
theorem claim_C5_peak_yoy (tab : List Row) (r : List String)
    (hne : trendByYear tab r ≠ []) :
    ∃ ty tv yy, peakInsight (trendByYear tab r) = some (ty, tv, yy)
      ∧ (yy = none ↔ ((trendByYear tab r).head?.map Prod.fst = some ty
            ∨ prevValueIn (trendByYear tab r) ty = some 0))
      ∧ (∀ pv : Int, prevValueIn (trendByYear tab r) ty = some pv → pv ≠ 0 →
          yy = some (((tv : ℚ) - (pv : ℚ)) / (pv : ℚ) * 100)) := by
  obtain ⟨⟨ty, tv⟩, hmax⟩ := argmaxFirst_isSome _ hne
  have hs := trend_pairwise tab r
  have hpk := peakInsight_sorted _ hs ty tv hmax
  refine ⟨ty, tv, yoyFrom tv (prevValueIn (trendByYear tab r) ty), hpk, ?_, ?_⟩
  · obtain ⟨pre, post, hdec, -, -⟩ := argmaxFirst_firstMax _ _ hmax
    have hne' : (pre ++ (ty, tv) :: post).Pairwise (fun p q => p.1 ≠ q.1) :=
      (hdec ▸ hs).imp ne_of_lt
    rcases List.pairwise_append.1 hne' with ⟨-, hne2, hne3⟩
    have hprene : ty ∉ pre.map Prod.fst := by
      intro hc
      rcases List.mem_map.1 hc with ⟨q, hq, hq1⟩
      exact hne3 q hq (ty, tv) (List.mem_cons_self _ _) hq1
    have hpostne : ty ∉ post.map Prod.fst := by
      intro hc
      rcases List.mem_map.1 hc with ⟨q, hq, hq1⟩
      exact (List.pairwise_cons.1 hne2).1 q hq hq1.symm
    rw [hdec]
    cases pre with
    | nil =>
      simp only [List.nil_append]
      rw [prevValueIn_not_mem post (ty, tv) ty hpostne]
      simp [yoyFrom]
    | cons c pre' =>
      have hc1 : c.1 ≠ ty := by
        intro e
        exact hprene (by simp [e])
      rw [prevValueIn_cons_pre pre' c (ty, tv) post hprene]
      by_cases hpv : ((c :: pre').getLast (List.cons_ne_nil c pre')).2 = 0
      · simp [yoyFrom, hpv]
      · simp [yoyFrom, hpv, hc1]
  · intro pv hpv hpv0
    rw [hpv]
    simp [yoyFrom, hpv0]

theorem claim_C5_witness :
    trendByYear exTable ["Bandung"] ≠ []
    ∧ ∃ ty tv yy, peakInsight (trendByYear exTable ["Bandung"]) = some (ty, tv, yy)
      ∧ (yy = none ↔ ((trendByYear exTable ["Bandung"]).head?.map Prod.fst = some ty
            ∨ prevValueIn (trendByYear exTable ["Bandung"]) ty = some 0))
      ∧ (∀ pv : Int, prevValueIn (trendByYear exTable ["Bandung"]) ty = some pv → pv ≠ 0 →
          yy = some (((tv : ℚ) - (pv : ℚ)) / (pv : ℚ) * 100)) :=
  ⟨by decide, claim_C5_peak_yoy exTable ["Bandung"] (by decide)⟩

end HIVDash
